import Mathlib

/-!
Verification of the yt-hlite highlight editor.

The JavaScript sources embedded here:
- the Cloudflare worker (description parser, request validation),
- the browser editor `docs/js/app.js` (highlight CRUD, description export),
- spec-modelled scorer / learner / selection components whose Python
  sources are not part of this repository snapshot.

Strings are modelled as `List Char`; JS numbers as `ℚ` (all the programs
ever do with them here is compare, add and subtract, which is exact).
-/

namespace YtHlite

abbrev Str := List Char

/-- Whitespace recognised by JS `trim` / `\s`, restricted to the ASCII
whitespace that can actually occur in the data handled here. -/
def isSpaceChar (c : Char) : Bool :=
  c = ' ' || c = '\t' || c = '\r' || c = '\n'

/-- Left part of JS `String.prototype.trim`. -/
def trimLeft (cs : Str) : Str := cs.dropWhile isSpaceChar

/-- Right part of JS `String.prototype.trim`. -/
def trimRight (cs : Str) : Str := (cs.reverse.dropWhile isSpaceChar).reverse

/-- JS `String.prototype.trim`. -/
def jsTrim (cs : Str) : Str := trimRight (trimLeft cs)

/-- JS `String.prototype.split(sep)` for a one-character separator:
always returns one more part than there are separators. -/
def splitOnChar (sep : Char) : Str → List Str
  | [] => [[]]
  | c :: cs =>
    match splitOnChar sep cs with
    | [] => [[]]
    | p :: ps => if c = sep then [] :: p :: ps else (c :: p) :: ps

/-- JS `Array.prototype.join('\n')`. -/
def joinLines : List Str → Str
  | [] => []
  | [l] => l
  | l :: ls => l ++ '\n' :: joinLines ls

/-- Numeric value of a decimal digit character. -/
def digitVal (c : Char) : ℕ := c.toNat - '0'.toNat

/-- Value of a string of decimal digits, most significant first
(the computation JS `parseInt` performs on an all-digit string). -/
def digitsToNat (cs : Str) : ℕ := cs.foldl (fun acc c => acc * 10 + digitVal c) 0

/-- Fuel-driven digit expansion (structural recursion, so that concrete
values reduce in the kernel). -/
def natToCharsAux : ℕ → ℕ → Str
  | 0, _ => []
  | fuel + 1, n =>
    if n < 10 then [Nat.digitChar n]
    else natToCharsAux fuel (n / 10) ++ [Nat.digitChar (n % 10)]

/-- JS `Number.prototype.toString()` for a natural number: its decimal
digits, most significant first (`n + 1` is always enough fuel, see
`natToCharsAux_fuel`). -/
def natToChars (n : ℕ) : Str := natToCharsAux (n + 1) n

/-- JS `parseInt(s)` (radix 10), for the non-negative inputs that occur
here: leading whitespace skipped, then a maximal run of digits; `none`
models the `NaN` result when no digit is found. -/
def jsParseInt (cs : Str) : Option ℕ :=
  let ds := (trimLeft cs).takeWhile Char.isDigit
  if ds.isEmpty then none else some (digitsToNat ds)

/- ### Timestamp pattern and parsing (cloudflare-worker/worker.js) -/

/-- Whole-string match of the timestamp sub-pattern
`\d+:\d{1,2}(?::\d{1,2})?`: the string splits on `:` into two or three
runs of digits, the first non-empty and the later ones of length 1 or 2. -/
def tsMatches (cs : Str) : Bool :=
  match splitOnChar ':' cs with
  | [d1, d2] =>
    !d1.isEmpty && d1.all Char.isDigit &&
    !d2.isEmpty && d2.length ≤ 2 && d2.all Char.isDigit
  | [d1, d2, d3] =>
    !d1.isEmpty && d1.all Char.isDigit &&
    !d2.isEmpty && d2.length ≤ 2 && d2.all Char.isDigit &&
    !d3.isEmpty && d3.length ≤ 2 && d3.all Char.isDigit
  | _ => false

/-- The worker's anchored range pattern
`^(\d+:\d{1,2}(?::\d{1,2})?)\s*-\s*(\d+:\d{1,2}(?::\d{1,2})?)$`,
returning the two captured groups.  Since a timestamp holds only digits
and colons, a matching string has exactly one `-`; the part before it is
group 1 followed by whitespace, the part after it is whitespace followed
by group 2. -/
def matchRange (cs : Str) : Option (Str × Str) :=
  match splitOnChar '-' cs with
  | [l, r] =>
    let g1 := trimRight l
    let g2 := trimLeft r
    if tsMatches g1 && tsMatches g2 then some (g1, g2) else none
  | _ => none

/-- `parseTimestamp` from the worker: split on `:` and combine the parts.
`none` models both the `null` result (wrong number of parts) and the
`NaN` arithmetic on a part without digits, which the caller's
`!== null && end > start` test rejects either way. -/
def parseTimestamp (ts : Str) : Option ℕ :=
  match splitOnChar ':' (jsTrim ts) with
  | [p0, p1] =>
    match jsParseInt p0, jsParseInt p1 with
    | some a, some b => some (a * 60 + b)
    | _, _ => none
  | [p0, p1, p2] =>
    match jsParseInt p0, jsParseInt p1, jsParseInt p2 with
    | some a, some b, some c => some (a * 3600 + b * 60 + c)
    | _, _, _ => none
  | _ => none

def highlightsHeader : Str := "[Highlights]".toList

/-- One step of the worker's `for (const line of lines)` loop, with the
`inSection` flag; returning `[]` in the third branch models `break`. -/
def parseLoop : List Str → Bool → List (ℕ × ℕ)
  | [], _ => []
  | line :: rest, inSection =>
    let stripped := jsTrim line
    if stripped = highlightsHeader then parseLoop rest true
    else if !inSection then parseLoop rest inSection
    else if stripped.isEmpty ||
        (stripped.head? = some '[' && stripped.getLast? = some ']') then []
    else
      match matchRange stripped with
      | some (g1, g2) =>
        match parseTimestamp g1, parseTimestamp g2 with
        | some startTime, some endTime =>
          if endTime > startTime then (startTime, endTime) :: parseLoop rest true
          else parseLoop rest true
        | _, _ => parseLoop rest true
      | none => parseLoop rest true

/-- `parseHighlightsFromDescription` from the worker. -/
def parseHighlightsFromDescription (description : Str) : List (ℕ × ℕ) :=
  if description.isEmpty then []
  else parseLoop (splitOnChar '\n' description) false

/- ### Formatting (docs/js/app.js, copyForDescription) -/

/-- JS `Math.round`: `⌊x + 1/2⌋` (rounds halves toward `+∞`). -/
def jsRound (q : ℚ) : ℤ := ⌊q + 1/2⌋

/-- `Math.round` followed by the app's use of the result as a
non-negative second count (`Int.toNat` is the identity on the
non-negative times the app produces). -/
def roundNat (q : ℚ) : ℕ := (jsRound q).toNat

/-- JS `String(n).padStart(2, '0')` for a natural number. -/
def pad2 (n : ℕ) : Str := if n < 10 then '0' :: natToChars n else natToChars n

/-- `formatTimestampForDescription` on the already-rounded second count. -/
def formatSecs (totalSecs : ℕ) : Str :=
  let hours := totalSecs / 3600
  let minutes := (totalSecs % 3600) / 60
  let secs := totalSecs % 60
  if hours > 0 then
    natToChars hours ++ ':' :: pad2 minutes ++ ':' :: pad2 secs
  else
    natToChars minutes ++ ':' :: pad2 secs

/-- `formatTimestampForDescription` from `docs/js/app.js` (faithful for
the non-negative times the app maintains). -/
def formatTimestampForDescription (seconds : ℚ) : Str :=
  formatSecs (roundNat seconds)

/- ### Highlight objects (docs/js/app.js) -/

structure Highlight where
  id : Str
  start_time : ℚ
  end_time : ℚ
  duration : ℚ
  source : Str
  label : Option Str
deriving DecidableEq

/-- The comparator `(a, b) => a.start_time - b.start_time` used with the
(stable) JS `Array.prototype.sort`. -/
def hlLe (a b : Highlight) : Bool := decide (a.start_time ≤ b.start_time)

/-- `[...highlights].sort((a, b) => a.start_time - b.start_time)`. -/
def sortByStart (hs : List Highlight) : List Highlight := hs.mergeSort hlLe

/-- The line `` `${start} - ${end}` `` pushed by `copyForDescription`. -/
def descriptionLine (h : Highlight) : Str :=
  formatTimestampForDescription h.start_time ++
    ' ' :: '-' :: ' ' :: formatTimestampForDescription h.end_time

/-- `copyForDescription` from `docs/js/app.js`: the text written to the
clipboard, or `none` when the highlight list is empty and the function
returns after a toast without writing anything. -/
def copyForDescription (watchUrl : Str) (hs : List Highlight) : Option Str :=
  if hs.isEmpty then none
  else
    some (joinLines ([watchUrl, [], highlightsHeader] ++
      (sortByStart hs).map descriptionLine))

/-- Every character of a formatted timestamp is a digit or a colon. -/
def tsChar (c : Char) : Bool := c.isDigit || c = ':'

/-- The `data.highlights.map((h, i) => ({...}))` seeding step of
`loadVideoData` (docs/js/app.js): the client's initial highlight state
built from the worker's parsed `(start_time, end_time)` pairs. -/
def loadHighlights (pairs : List (ℕ × ℕ)) : List Highlight :=
  pairs.mapIdx fun i p =>
    { id := "desc_".toList ++ natToChars (i + 1)
      start_time := (p.1 : ℚ)
      end_time := (p.2 : ℚ)
      duration := (p.2 : ℚ) - (p.1 : ℚ)
      source := "description".toList
      label := none }

/- ### Editor state and highlight CRUD (docs/js/app.js) -/

/-- The mutable client state touched by the highlight CRUD operations
(rendering-only state is omitted). -/
structure EditorState where
  highlights : List Highlight
  selectedHighlightId : Option Str
  recordingStart : Option ℚ
  highlightCounter : ℕ
deriving DecidableEq

/-- `highlights[index].duration = end_time - start_time` recomputed by
`updateHighlight`. -/
def recomputeDuration (h : Highlight) : Highlight :=
  { h with duration := h.end_time - h.start_time }

/-- `createHighlight(start, end)` from `docs/js/app.js`: push a new
`manual_<n>` highlight, re-sort by `start_time`, select it. -/
def createHighlight (s : EditorState) (start e : ℚ) : EditorState :=
  let ctr := s.highlightCounter + 1
  let h : Highlight :=
    { id := "manual_".toList ++ natToChars ctr
      start_time := start
      end_time := e
      duration := e - start
      source := "manual".toList
      label := none }
  { s with
      highlightCounter := ctr
      highlights := (s.highlights ++ [h]).mergeSort hlLe
      selectedHighlightId := some h.id }

/-- `updateHighlight(id, updates)` from `docs/js/app.js`: patch the first
highlight with the given id, recompute its duration, re-sort. -/
def updateHighlight (s : EditorState) (id : Str) (upd : Highlight → Highlight) :
    EditorState :=
  match s.highlights.findIdx? (fun h => decide (h.id = id)) with
  | none => s
  | some i =>
    match s.highlights[i]? with
    | none => s
    | some h =>
      { s with
          highlights := (s.highlights.set i (recomputeDuration (upd h))).mergeSort hlLe }

/-- `wouldOverlap(start, end, excludeId)` from `docs/js/app.js`
(`excludeId === undefined` is modelled as `none`). -/
def wouldOverlap (s : EditorState) (start e : ℚ) (excludeId : Option Str) : Bool :=
  s.highlights.any fun h =>
    if excludeId = some h.id then false
    else decide (start < h.end_time) && decide (e > h.start_time)

/-- The tail of `setHighlightStart`: refuse a bracket start inside an
existing `[start_time, end_time)` span, otherwise arm `recordingStart`. -/
def bracketStart (s : EditorState) (time : ℚ) : EditorState :=
  if s.highlights.any (fun h =>
      decide (time ≥ h.start_time) && decide (time < h.end_time)) then s
  else { s with recordingStart := some time }

/-- `setHighlightStart(time)` from `docs/js/app.js`. -/
def setHighlightStart (s : EditorState) (time : ℚ) : EditorState :=
  match s.selectedHighlightId, s.recordingStart with
  | some selId, none =>
    match s.highlights.find? (fun h => decide (h.id = selId)) with
    | some h =>
      if time < h.end_time then
        if wouldOverlap s time h.end_time (some selId) then s
        else updateHighlight s selId (fun hh => { hh with start_time := time })
      else bracketStart s time
    | none => bracketStart s time
  | _, _ => bracketStart s time

/-- The `else if (selectedHighlightId !== null)` branch of
`setHighlightEnd`. -/
def selEnd (s : EditorState) (time : ℚ) : EditorState :=
  match s.selectedHighlightId with
  | some selId =>
    match s.highlights.find? (fun h => decide (h.id = selId)) with
    | some h =>
      if time > h.start_time then
        if wouldOverlap s h.start_time time (some selId) then s
        else updateHighlight s selId (fun hh => { hh with end_time := time })
      else s
    | none => s
  | none => s

/-- `setHighlightEnd(time)` from `docs/js/app.js`. -/
def setHighlightEnd (s : EditorState) (time : ℚ) : EditorState :=
  match s.recordingStart with
  | some rs =>
    if time > rs then
      if wouldOverlap s rs time none then s
      else { createHighlight s rs time with recordingStart := none }
    else selEnd s time
  | none => selEnd s time

/- ### Claim-side description parser (for claim C2) -/

/-- The pair a section line contributes: the value of the timestamp-range
pattern applied to the line, with each captured timestamp converted by
`parseTimestamp` (the claim's `M*60+SS` / `H*3600+MM*60+SS` formula, as
proved by `parseTimestamp_two` / `parseTimestamp_three`). -/
def lineToPair (l : Str) : Option (ℕ × ℕ) :=
  match matchRange l with
  | some (g1, g2) =>
    match parseTimestamp g1, parseTimestamp g2 with
    | some s, some e => some (s, e)
    | _, _ => none
  | none => none

/-- A blank line or a bracketed section header, the claim's section
terminators. -/
def isBlankOrBracketed (l : Str) : Bool :=
  l.isEmpty || (decide (l.head? = some '[') && decide (l.getLast? = some ']'))

/-- The claim's reading of the parser, parameterised by the predicate
that ends the `[Highlights]` section: trim the lines, take those after
the first `[Highlights]` line and before the first terminator, keep the
pairs of the lines matching the range pattern, then keep the pairs with
`end_time > start_time`.  No header yields the empty list. -/
def specParseWith (stop : Str → Bool) (description : Str) : List (ℕ × ℕ) :=
  let lines := (splitOnChar '\n' description).map jsTrim
  match lines.dropWhile (fun l => !(decide (l = highlightsHeader))) with
  | [] => []
  | _ :: after =>
    ((after.takeWhile (fun l => !(stop l))).filterMap lineToPair).filter
      (fun p => decide (p.1 < p.2))

/-- Claim C2 as stated: the section ends at the first blank line or
bracketed section header. -/
def specParseStated : Str → List (ℕ × ℕ) :=
  specParseWith isBlankOrBracketed

/-- Claim C2 amended: a later line equal to `[Highlights]` itself is
skipped and does not end the section. -/
def specParseAmended : Str → List (ℕ × ℕ) :=
  specParseWith (fun l => isBlankOrBracketed l && !(decide (l = highlightsHeader)))

/- ### Invariant predicates for the editor (claims C3, C8, C9) -/

/-- Strict interval overlap, the relation `wouldOverlap` tests:
`start < other.end_time && end > other.start_time`. -/
abbrev overlaps (a b : Highlight) : Prop :=
  a.start_time < b.end_time ∧ b.start_time < a.end_time

/-- No two highlights of the list overlap. -/
abbrev NonOverlapping (l : List Highlight) : Prop :=
  l.Pairwise (fun a b => ¬ overlaps a b)

/-- All highlight ids are distinct (the app's ids `desc_<i>` and
`manual_<n>` are generated uniquely). -/
abbrev idsNodup (l : List Highlight) : Prop := (l.map Highlight.id).Nodup

/-- Ascending `start_time` order. -/
abbrev startOrdered (l : List Highlight) : Prop :=
  l.Pairwise (fun a b => a.start_time ≤ b.start_time)

/-- Claim C9's per-highlight invariant. -/
abbrev GoodDur (h : Highlight) : Prop :=
  h.start_time < h.end_time ∧ h.duration = h.end_time - h.start_time

/-- Replacing the first element satisfying `p` (proof-friendly form of
`findIdx?` + `set`, see `updateHighlight_highlights`). -/
def replaceFirst (p : Highlight → Bool) (x : Highlight) : List Highlight → List Highlight
  | [] => []
  | h :: t => if p h then x :: t else h :: replaceFirst p x t

/- ### Spec-modelled scorer, selection and learner (claims C5, C6, C7) -/

/-- Modelled from the spec: the five scoring features of
`highlight_scorer.py`, which is not part of this repository snapshot. -/
inductive Feature where
  | duration
  | hit_count
  | crowd_intensity
  | motion_intensity
  | confidence
deriving DecidableEq

def Feature.all : List Feature :=
  [.duration, .hit_count, .crowd_intensity, .motion_intensity, .confidence]

/-- Modelled from the spec: the default weight vector
`{duration: 3.0, hit_count: 2.5, crowd_intensity: 1.5,
motion_intensity: 1.0, confidence: 0.5}`. -/
def defaultWeights : Feature → ℚ
  | .duration => 3
  | .hit_count => 5/2
  | .crowd_intensity => 3/2
  | .motion_intensity => 1
  | .confidence => 1/2

/-- Modelled from the spec: `Score = Σ weight[f] × component_scores[f]`
(`highlight_scorer.py` is not part of this repository snapshot). -/
def computeScore (w c : Feature → ℚ) : ℚ :=
  (Feature.all.map fun f => w f * c f).sum

/-- The component scores of the spec's Scenario C. -/
def scenarioCScores : Feature → ℚ
  | .duration => 1
  | .hit_count => 4/5
  | .crowd_intensity => 1/2
  | .motion_intensity => 1/5
  | .confidence => 9/10

/-- `CompilationConfig` (documented in the repository's CLAUDE.md). -/
structure CompilationConfig where
  context_before : ℚ
  context_after : ℚ
  transition_duration : ℚ
  add_transitions : Bool
  max_duration : ℚ
deriving DecidableEq

/-- The default `CompilationConfig`. -/
def defaultConfig : CompilationConfig :=
  { context_before := 1
    context_after := 3/2
    transition_duration := 1/2
    add_transitions := true
    max_duration := 300 }

/-- Modelled from the spec: the per-rally data the selection step reads
(`highlight_scorer.py` is not part of this repository snapshot). -/
structure ScoredRallyM where
  duration : ℚ
  score : ℚ
deriving DecidableEq

/-- The budget cost of one selected rally:
`duration + context_before + context_after`. -/
def clipCost (cfg : CompilationConfig) (r : ScoredRallyM) : ℚ :=
  r.duration + cfg.context_before + cfg.context_after

/-- Modelled from the spec: the greedy selection walk over the rallies in
rank order with the running budget `acc`; once a rally does not fit, it
and all remaining rallies are marked unselected regardless of score
(`highlight_scorer.py` is not part of this repository snapshot). -/
def selectLoop (cfg : CompilationConfig) : List ScoredRallyM → ℚ → List (ScoredRallyM × Bool)
  | [], _ => []
  | r :: rs, acc =>
    if acc + clipCost cfg r ≤ cfg.max_duration then
      (r, true) :: selectLoop cfg rs (acc + clipCost cfg r)
    else
      (r, false) :: rs.map (fun x => (x, false))

/-- The selection step started with an empty running sum. -/
def selectUnderBudget (cfg : CompilationConfig) (rs : List ScoredRallyM) :
    List (ScoredRallyM × Bool) :=
  selectLoop cfg rs 0

/-- Total budget cost of the selected rallies of a selection result. -/
def selectedCostSum (cfg : CompilationConfig) (res : List (ScoredRallyM × Bool)) : ℚ :=
  ((res.filter (fun p => p.2)).map (fun p => clipCost cfg p.1)).sum

/-- Modelled from the spec: a `keep`/`reject` feedback decision. -/
inductive Decision where
  | keep
  | reject
deriving DecidableEq

/-- Modelled from the spec: the part of a `FeedbackRecord` the learner
reads. -/
structure FeedbackM where
  decision : Decision
  component_scores : Feature → ℚ

/-- `keep` is a positive label, `reject` a negative one. -/
def labelSign : Decision → ℚ
  | .keep => 1
  | .reject => -1

/-- Modelled from the spec: one `PreferenceLearner` update
(`preference_learner.py` is not part of this repository snapshot):
`weight[f] += learning_rate * label_sign * component_scores[f]`, clamp
each weight to `≥ 0`, renormalize so the weight sum is held constant
(left unscaled when the clamped sum is zero and no scaling can restore
the total). -/
def updateWeights (lr : ℚ) (w : Feature → ℚ) (fb : FeedbackM) : Feature → ℚ :=
  let raw := fun f => w f + lr * labelSign fb.decision * fb.component_scores f
  let clamped := fun f => max 0 (raw f)
  let total := (Feature.all.map w).sum
  let csum := (Feature.all.map clamped).sum
  if csum = 0 then clamped else fun f => clamped f * (total / csum)

/-- A finite sequence of learner updates. -/
def applyFeedbacks (lr : ℚ) (w : Feature → ℚ) (fbs : List FeedbackM) : Feature → ℚ :=
  fbs.foldl (updateWeights lr) w

/-- Every weight non-negative. -/
def NonNegWeights (w : Feature → ℚ) : Prop := ∀ f, 0 ≤ w f

/- ### The Cloudflare worker request handler (claim C10) -/

/-- The JSON value handed to `jsonResponse` / `Response` on each path of
the worker's `fetch` (the response body is its `JSON.stringify`; for the
claim only the `invalidId` payload `{"error": "Invalid video ID"}`
matters). -/
inductive WorkerBody where
  | corsPreflight
  | notFoundText
  | invalidId
  | ytApiError (details : Str)
  | videoNotFound
  | result (videoId title description : Str) (highlights : List (ℕ × ℕ))
      (channelTitle publishedAt : Str)
  | cached (raw : Str)
deriving DecidableEq

/-- `JSON.stringify({ error: "Invalid video ID" })`. -/
def invalidIdBodyText : Str := "\x7b\"error\":\"Invalid video ID\"\x7d".toList

/-- The observable I/O the worker can perform: KV reads/writes and the
YouTube API call. -/
inductive WorkerEffect where
  | cacheGet (key : Str)
  | ytFetch (url : Str)
  | cachePut (key : Str) (value : WorkerBody)
deriving DecidableEq

/-- Outcome of `fetch(apiUrl)` + `.json()` as the worker consumes it. -/
inductive YtOutcome where
  | httpError (details : Str)
  | noItems
  | ok (title description channelTitle publishedAt : Str)

/-- The worker's environment: KV binding (if configured), the API key,
and an oracle for the YouTube API response. -/
structure WorkerEnv where
  hasKV : Bool
  cacheLookup : Str → Option Str
  apiKey : Str
  yt : Str → YtOutcome

/-- The parts of the incoming request the worker reads. -/
structure WorkerRequest where
  method : Str
  pathname : Str
  v : Option Str

/-- Status and body of the worker's response (the constant CORS headers
are omitted). -/
structure WorkerResponse where
  status : ℕ
  body : WorkerBody
deriving DecidableEq

/-- One character of the id pattern `[a-zA-Z0-9_-]`. -/
def validVideoChar (c : Char) : Bool :=
  c.isAlpha || c.isDigit || c = '_' || c = '-'

/-- The worker's id test `/^[a-zA-Z0-9_-]{11}$/.test(videoId)`. -/
def validVideoId (s : Str) : Bool :=
  decide (s.length = 11) && s.all validVideoChar

/-- JS truthiness of a string (`!videoId` is true for `null` and `""`). -/
def jsTruthy (s : Str) : Bool := !s.isEmpty

/-- The YouTube API URL the worker builds. -/
def ytApiUrl (key vid : Str) : Str :=
  "https://www.googleapis.com/youtube/v3/videos?part=snippet&id=".toList ++ vid ++
    "&key=".toList ++ key

/-- The worker's `fetch(request, env)` from `cloudflare-worker/worker.js`,
returning the response and the trace of cache / YouTube API effects. -/
def workerFetch (env : WorkerEnv) (req : WorkerRequest) :
    WorkerResponse × List WorkerEffect :=
  if req.method = "OPTIONS".toList then
    ({ status := 200, body := .corsPreflight }, [])
  else if ¬ (req.pathname = "/api/yt-metadata".toList) then
    ({ status := 404, body := .notFoundText }, [])
  else
    match req.v with
    | none => ({ status := 400, body := .invalidId }, [])
    | some videoId =>
      if !jsTruthy videoId || !validVideoId videoId then
        ({ status := 400, body := .invalidId }, [])
      else
        let getEffects := if env.hasKV then [WorkerEffect.cacheGet videoId] else []
        match (if env.hasKV then env.cacheLookup videoId else none) with
        | some raw => ({ status := 200, body := .cached raw }, getEffects)
        | none =>
          let apiUrl := ytApiUrl env.apiKey videoId
          match env.yt apiUrl with
          | .httpError details =>
            ({ status := 502, body := .ytApiError details },
              getEffects ++ [.ytFetch apiUrl])
          | .noItems =>
            ({ status := 404, body := .videoNotFound },
              getEffects ++ [.ytFetch apiUrl])
          | .ok title description channelTitle publishedAt =>
            let highlights := parseHighlightsFromDescription description
            let body := WorkerBody.result videoId title description highlights
              channelTitle publishedAt
            let putEffects := if env.hasKV then [WorkerEffect.cachePut videoId body] else []
            ({ status := 200, body := body },
              getEffects ++ [.ytFetch apiUrl] ++ putEffects)

/- ### Concrete instances used by witnesses and counterexamples -/

/-- A watch URL of the deployed app (the url line `copyForDescription`
emits first). -/
def urlW : Str := "https://popcornylu.github.io/yt-hlite/?v=dQw4w9WgXcQ".toList

/-- Two well-formed highlights, deliberately out of order. -/
def hsW : List Highlight :=
  [{ id := "manual_1".toList, start_time := 61, end_time := 130, duration := 69,
     source := "manual".toList, label := none },
   { id := "desc_1".toList, start_time := 5, end_time := 12, duration := 7,
     source := "description".toList, label := none }]

/-- A highlight shorter than half a second: both ends round to 1s. -/
def hlTiny : Highlight :=
  { id := "manual_1".toList, start_time := 6/5, end_time := 7/5, duration := 1/5,
    source := "manual".toList, label := none }

/-- The highlight `[10, 20]` used by the concrete editor states below. -/
def hlTen : Highlight :=
  { id := "desc_1".toList, start_time := 10, end_time := 20, duration := 10,
    source := "description".toList, label := none }

/-- An editor state with one selected highlight `[10, 20]`. -/
def stateW : EditorState :=
  { highlights := [hlTen],
    selectedHighlightId := some "desc_1".toList,
    recordingStart := none,
    highlightCounter := 1 }

/-- An editor state recording since `t = 5` next to a highlight `[10, 20]`. -/
def stateTouch : EditorState :=
  { highlights := [hlTen],
    selectedHighlightId := none,
    recordingStart := some 5,
    highlightCounter := 1 }

/- ### Basic lemmas about the string infrastructure -/

theorem digitVal_digitChar {m : ℕ} (h : m < 10) : digitVal (Nat.digitChar m) = m := by
  interval_cases m <;> decide

theorem isDigit_digitChar {m : ℕ} (h : m < 10) : (Nat.digitChar m).isDigit = true := by
  interval_cases m <;> decide

theorem digitsToNat_append_digit (l : Str) (c : Char) :
    digitsToNat (l ++ [c]) = 10 * digitsToNat l + digitVal c := by
  simp [digitsToNat, List.foldl_append, Nat.mul_comm]

theorem natToCharsAux_fuel :
    ∀ (fuel₁ : ℕ) {fuel₂ n : ℕ}, n < fuel₁ → n < fuel₂ →
      natToCharsAux fuel₁ n = natToCharsAux fuel₂ n := by
  intro fuel₁
  induction fuel₁ with
  | zero => omega
  | succ f₁ ih =>
    intro fuel₂ n h₁ h₂
    cases fuel₂ with
    | zero => omega
    | succ f₂ =>
      by_cases h : n < 10
      · simp [natToCharsAux, h]
      · have hdiv : n / 10 < n := Nat.div_lt_self (by omega) (by omega)
        simp only [natToCharsAux, h, if_false]
        rw [ih (show n / 10 < f₁ by omega) (show n / 10 < f₂ by omega)]

theorem natToChars_lt_ten {n : ℕ} (h : n < 10) : natToChars n = [Nat.digitChar n] := by
  simp [natToChars, natToCharsAux, h]

theorem natToChars_eq {n : ℕ} (h : ¬ n < 10) :
    natToChars n = natToChars (n / 10) ++ [Nat.digitChar (n % 10)] := by
  have hdiv : n / 10 < n := Nat.div_lt_self (by omega) (by omega)
  have h1 : natToChars n = natToCharsAux n (n / 10) ++ [Nat.digitChar (n % 10)] := by
    rw [natToChars]
    show (if n < 10 then [Nat.digitChar n]
      else natToCharsAux n (n / 10) ++ [Nat.digitChar (n % 10)]) = _
    rw [if_neg h]
  rw [h1, natToCharsAux_fuel n (show n / 10 < n by omega)
    (show n / 10 < n / 10 + 1 by omega)]
  rfl

theorem digitsToNat_natToChars (n : ℕ) : digitsToNat (natToChars n) = n := by
  induction n using Nat.strong_induction_on with
  | _ n ih =>
    by_cases h : n < 10
    · rw [natToChars_lt_ten h]
      simp [digitsToNat, digitVal_digitChar h]
    · rw [natToChars_eq h, digitsToNat_append_digit,
        ih (n / 10) (Nat.div_lt_self (by omega) (by omega)),
        digitVal_digitChar (Nat.mod_lt _ (by omega))]
      omega

theorem natToChars_ne_nil (n : ℕ) : natToChars n ≠ [] := by
  by_cases h : n < 10
  · rw [natToChars_lt_ten h]
    simp
  · rw [natToChars_eq h]
    simp

theorem natToChars_all_digits (n : ℕ) : (natToChars n).all Char.isDigit = true := by
  induction n using Nat.strong_induction_on with
  | _ n ih =>
    by_cases h : n < 10
    · rw [natToChars_lt_ten h]
      simp [isDigit_digitChar h]
    · rw [natToChars_eq h]
      simp only [List.all_append, ih (n / 10) (Nat.div_lt_self (by omega) (by omega)),
        Bool.true_and, List.all_cons, List.all_nil]
      simp [isDigit_digitChar (Nat.mod_lt n (by omega))]

theorem digit_ne {c x : Char} (h : c.isDigit = true) (hx : x.isDigit = false) : c ≠ x := by
  intro he
  subst he
  rw [h] at hx
  cases hx

theorem isSpaceChar_eq_false_of_isDigit {c : Char} (h : c.isDigit = true) :
    isSpaceChar c = false := by
  simp only [isSpaceChar, Bool.or_eq_false_iff, decide_eq_false_iff_not]
  refine ⟨⟨⟨?_, ?_⟩, ?_⟩, ?_⟩ <;> exact digit_ne h (by decide)

theorem splitOnChar_ne_nil (sep : Char) (cs : Str) : splitOnChar sep cs ≠ [] := by
  cases cs with
  | nil => simp [splitOnChar]
  | cons c cs =>
    rw [splitOnChar]
    split
    · simp
    · split <;> simp

theorem splitOnChar_of_not_mem {sep : Char} {cs : Str} (h : sep ∉ cs) :
    splitOnChar sep cs = [cs] := by
  induction cs with
  | nil => rfl
  | cons c cs ih =>
    rw [splitOnChar, ih (fun hm => h (List.mem_cons_of_mem _ hm))]
    have hc : ¬ c = sep := fun he => h (he ▸ List.mem_cons_self _ _)
    simp [hc]

theorem splitOnChar_append_sep {sep : Char} {l r : Str} (h : sep ∉ l) :
    splitOnChar sep (l ++ sep :: r) = l :: splitOnChar sep r := by
  induction l with
  | nil =>
    rw [List.nil_append, splitOnChar]
    rcases hr : splitOnChar sep r with _ | ⟨p, ps⟩
    · exact absurd hr (splitOnChar_ne_nil sep r)
    · simp
  | cons c l ih =>
    have hc : ¬ c = sep := fun he => h (he ▸ List.mem_cons_self _ _)
    rw [List.cons_append, splitOnChar, ih (fun hm => h (List.mem_cons_of_mem _ hm))]
    simp [hc]

theorem trimLeft_cons_of_not_space {c : Char} {cs : Str} (h : isSpaceChar c = false) :
    trimLeft (c :: cs) = c :: cs := by
  simp [trimLeft, List.dropWhile_cons, h]

theorem trimRight_append_of_not_space {c : Char} {l : Str} (h : isSpaceChar c = false) :
    trimRight (l ++ [c]) = l ++ [c] := by
  simp [trimRight, List.dropWhile_cons, h]

theorem joinLines_cons_cons (a b : Str) (ls : List Str) :
    joinLines (a :: b :: ls) = a ++ '\n' :: joinLines (b :: ls) := rfl

theorem splitOnChar_joinLines {m : List Str} (hne : m ≠ [])
    (h : ∀ l ∈ m, '\n' ∉ l) :
    splitOnChar '\n' (joinLines m) = m := by
  induction m with
  | nil => exact absurd rfl hne
  | cons a ls ih =>
    cases ls with
    | nil =>
      rw [joinLines, splitOnChar_of_not_mem (h a (List.mem_cons_self _ _))]
    | cons b ls =>
      rw [joinLines_cons_cons,
        splitOnChar_append_sep (h a (List.mem_cons_self _ _)),
        ih (by simp) (fun l hl => h l (List.mem_cons_of_mem _ hl))]

/- ### Round-trip lemmas for the timestamp codec -/

theorem natToChars_head_digit (n : ℕ) :
    ∃ d ds, natToChars n = d :: ds ∧ d.isDigit = true := by
  induction n using Nat.strong_induction_on with
  | _ n ih =>
    by_cases h : n < 10
    · exact ⟨Nat.digitChar n, [], natToChars_lt_ten h, isDigit_digitChar h⟩
    · obtain ⟨d, ds, hds, hd⟩ := ih (n / 10) (Nat.div_lt_self (by omega) (by omega))
      refine ⟨d, ds ++ [Nat.digitChar (n % 10)], ?_, hd⟩
      rw [natToChars_eq h, hds]
      rfl

theorem natToChars_last_digit (n : ℕ) :
    ∃ pre d, natToChars n = pre ++ [d] ∧ d.isDigit = true := by
  by_cases h : n < 10
  · exact ⟨[], Nat.digitChar n, natToChars_lt_ten h, isDigit_digitChar h⟩
  · exact ⟨natToChars (n / 10), Nat.digitChar (n % 10), natToChars_eq h,
      isDigit_digitChar (Nat.mod_lt n (by omega))⟩

theorem pad2_all_digits (n : ℕ) : (pad2 n).all Char.isDigit = true := by
  unfold pad2
  split
  · simp [natToChars_all_digits, show ('0').isDigit = true by decide]
  · exact natToChars_all_digits n

theorem pad2_ne_nil (n : ℕ) : pad2 n ≠ [] := by
  unfold pad2
  split
  · simp
  · exact natToChars_ne_nil n

theorem pad2_length_le_two {n : ℕ} (h : n < 100) : (pad2 n).length ≤ 2 := by
  unfold pad2
  split
  · next h10 => simp [natToChars_lt_ten h10]
  · next h10 =>
    rw [natToChars_eq h10, natToChars_lt_ten (show n / 10 < 10 by omega)]
    simp

theorem digitsToNat_cons_zero (l : Str) : digitsToNat ('0' :: l) = digitsToNat l := rfl

theorem digitsToNat_pad2 (n : ℕ) : digitsToNat (pad2 n) = n := by
  unfold pad2
  split
  · rw [digitsToNat_cons_zero, digitsToNat_natToChars]
  · exact digitsToNat_natToChars n

theorem pad2_last_digit (n : ℕ) :
    ∃ pre d, pad2 n = pre ++ [d] ∧ d.isDigit = true := by
  unfold pad2
  split
  · obtain ⟨pre, d, hp, hd⟩ := natToChars_last_digit n
    exact ⟨'0' :: pre, d, by simp [hp], hd⟩
  · exact natToChars_last_digit n

theorem not_mem_of_all_digits {l : Str} {x : Char} (hall : l.all Char.isDigit = true)
    (hx : x.isDigit = false) : x ∉ l := by
  intro hm
  have := List.all_eq_true.mp hall x hm
  rw [this] at hx
  cases hx

theorem takeWhile_all_eq_self {l : Str} {p : Char → Bool} (h : l.all p = true) :
    l.takeWhile p = l := by
  induction l with
  | nil => rfl
  | cons c cs ih =>
    simp only [List.all_cons, Bool.and_eq_true] at h
    simp [List.takeWhile_cons, h.1, ih h.2]

theorem jsParseInt_digits {l : Str} (hne : l ≠ []) (hall : l.all Char.isDigit = true) :
    jsParseInt l = some (digitsToNat l) := by
  cases l with
  | nil => exact absurd rfl hne
  | cons c cs =>
    have hc : c.isDigit = true := by
      simp only [List.all_cons, Bool.and_eq_true] at hall
      exact hall.1
    unfold jsParseInt
    rw [trimLeft_cons_of_not_space (isSpaceChar_eq_false_of_isDigit hc),
      takeWhile_all_eq_self hall]
    simp

theorem trimRight_append_space {c : Char} {l : Str} (h : isSpaceChar c = true) :
    trimRight (l ++ [c]) = trimRight l := by
  simp [trimRight, List.dropWhile_cons, h]

theorem trimLeft_cons_space {c : Char} {cs : Str} (h : isSpaceChar c = true) :
    trimLeft (c :: cs) = trimLeft cs := by
  simp [trimLeft, List.dropWhile_cons, h]

theorem colon_not_mem_natToChars (n : ℕ) : ':' ∉ natToChars n :=
  not_mem_of_all_digits (natToChars_all_digits n) (by decide)

theorem colon_not_mem_pad2 (n : ℕ) : ':' ∉ pad2 n :=
  not_mem_of_all_digits (pad2_all_digits n) (by decide)

/-- Splitting the two-component format on `:`. -/
theorem splitColon_two (a b : ℕ) :
    splitOnChar ':' (natToChars a ++ ':' :: pad2 b) = [natToChars a, pad2 b] := by
  rw [splitOnChar_append_sep (colon_not_mem_natToChars a),
    splitOnChar_of_not_mem (colon_not_mem_pad2 b)]

/-- Splitting the three-component format on `:`. -/
theorem splitColon_three (a b c : ℕ) :
    splitOnChar ':' (natToChars a ++ ':' :: pad2 b ++ ':' :: pad2 c)
      = [natToChars a, pad2 b, pad2 c] := by
  rw [List.append_assoc, List.cons_append,
    splitOnChar_append_sep (colon_not_mem_natToChars a),
    splitOnChar_append_sep (colon_not_mem_pad2 b),
    splitOnChar_of_not_mem (colon_not_mem_pad2 c)]

theorem jsTrim_of_ends {c d : Char} {mid : Str} (hc : isSpaceChar c = false)
    (hd : isSpaceChar d = false) :
    jsTrim (c :: (mid ++ [d])) = c :: (mid ++ [d]) := by
  unfold jsTrim
  rw [trimLeft_cons_of_not_space hc]
  have := trimRight_append_of_not_space (l := c :: mid) hd
  simpa using this

theorem jsTrim_two (a b : ℕ) :
    jsTrim (natToChars a ++ ':' :: pad2 b) = natToChars a ++ ':' :: pad2 b := by
  obtain ⟨c, cs, hc, hcd⟩ := natToChars_head_digit a
  obtain ⟨p, d, hp, hd⟩ := pad2_last_digit b
  rw [hc, hp]
  have heq : (c :: cs) ++ ':' :: (p ++ [d]) = c :: ((cs ++ ':' :: p) ++ [d]) := by simp
  rw [heq]
  exact jsTrim_of_ends (isSpaceChar_eq_false_of_isDigit hcd)
    (isSpaceChar_eq_false_of_isDigit hd)

theorem jsTrim_three (a b e : ℕ) :
    jsTrim (natToChars a ++ ':' :: pad2 b ++ ':' :: pad2 e)
      = natToChars a ++ ':' :: pad2 b ++ ':' :: pad2 e := by
  obtain ⟨c, cs, hc, hcd⟩ := natToChars_head_digit a
  obtain ⟨p, d, hp, hd⟩ := pad2_last_digit e
  rw [hc, hp]
  have heq : (c :: cs) ++ ':' :: pad2 b ++ ':' :: (p ++ [d])
      = c :: ((cs ++ ':' :: pad2 b ++ ':' :: p) ++ [d]) := by simp
  rw [heq]
  exact jsTrim_of_ends (isSpaceChar_eq_false_of_isDigit hcd)
    (isSpaceChar_eq_false_of_isDigit hd)

theorem parseTimestamp_two (a b : ℕ) :
    parseTimestamp (natToChars a ++ ':' :: pad2 b) = some (a * 60 + b) := by
  rw [parseTimestamp, jsTrim_two, splitColon_two]
  simp [jsParseInt_digits (natToChars_ne_nil a) (natToChars_all_digits a),
    jsParseInt_digits (pad2_ne_nil b) (pad2_all_digits b),
    digitsToNat_natToChars, digitsToNat_pad2]

theorem parseTimestamp_three (a b e : ℕ) :
    parseTimestamp (natToChars a ++ ':' :: pad2 b ++ ':' :: pad2 e)
      = some (a * 3600 + b * 60 + e) := by
  rw [parseTimestamp, jsTrim_three, splitColon_three]
  simp [jsParseInt_digits (natToChars_ne_nil a) (natToChars_all_digits a),
    jsParseInt_digits (pad2_ne_nil b) (pad2_all_digits b),
    jsParseInt_digits (pad2_ne_nil e) (pad2_all_digits e),
    digitsToNat_natToChars, digitsToNat_pad2]

theorem tsMatches_two (a b : ℕ) (hb : b < 100) :
    tsMatches (natToChars a ++ ':' :: pad2 b) = true := by
  rw [tsMatches, splitColon_two]
  simp [natToChars_ne_nil, pad2_ne_nil, natToChars_all_digits, pad2_all_digits,
    pad2_length_le_two hb, List.isEmpty_eq_true]

theorem tsMatches_three (a b e : ℕ) (hb : b < 100) (he : e < 100) :
    tsMatches (natToChars a ++ ':' :: pad2 b ++ ':' :: pad2 e) = true := by
  rw [tsMatches, splitColon_three]
  simp [natToChars_ne_nil, pad2_ne_nil, natToChars_all_digits, pad2_all_digits,
    pad2_length_le_two hb, pad2_length_le_two he, List.isEmpty_eq_true]

theorem formatSecs_of_lt {n : ℕ} (h : n < 3600) :
    formatSecs n = natToChars (n % 3600 / 60) ++ ':' :: pad2 (n % 60) := by
  simp [formatSecs, Nat.div_eq_of_lt h]

theorem formatSecs_of_ge {n : ℕ} (h : 3600 ≤ n) :
    formatSecs n
      = natToChars (n / 3600) ++ ':' :: pad2 (n % 3600 / 60) ++ ':' :: pad2 (n % 60) := by
  have hpos : 0 < n / 3600 := Nat.div_pos h (by omega)
  simp [formatSecs, hpos]

theorem parseTimestamp_formatSecs (n : ℕ) : parseTimestamp (formatSecs n) = some n := by
  by_cases h : n < 3600
  · rw [formatSecs_of_lt h, parseTimestamp_two]
    congr 1
    omega
  · rw [formatSecs_of_ge (by omega), parseTimestamp_three]
    congr 1
    omega

theorem tsMatches_formatSecs (n : ℕ) : tsMatches (formatSecs n) = true := by
  by_cases h : n < 3600
  · rw [formatSecs_of_lt h]
    exact tsMatches_two _ _ (by omega)
  · rw [formatSecs_of_ge (by omega)]
    exact tsMatches_three _ _ _ (by omega) (by omega)

/- ### The formatted description lines, as seen by the parser -/

theorem not_mem_of_all {p : Char → Bool} {l : Str} (hall : l.all p = true) {x : Char}
    (hx : p x = false) : x ∉ l := by
  intro hm
  have := List.all_eq_true.mp hall x hm
  rw [this] at hx
  cases hx

theorem all_imp {p q : Char → Bool} {l : Str} (hall : l.all p = true)
    (h : ∀ c, p c = true → q c = true) : l.all q = true := by
  rw [List.all_eq_true] at hall ⊢
  exact fun c hc => h c (hall c hc)

theorem formatSecs_all_tsChar (n : ℕ) : (formatSecs n).all tsChar = true := by
  have hdig : ∀ l : Str, l.all Char.isDigit = true → l.all tsChar = true := fun l hl =>
    all_imp hl (fun c hc => by simp [tsChar, hc])
  by_cases h : n < 3600
  · rw [formatSecs_of_lt h]
    simp only [List.all_append, List.all_cons, Bool.and_eq_true]
    exact ⟨hdig _ (natToChars_all_digits _), by decide, hdig _ (pad2_all_digits _)⟩
  · rw [formatSecs_of_ge (by omega)]
    simp only [List.all_append, List.all_cons, Bool.and_eq_true]
    exact ⟨⟨hdig _ (natToChars_all_digits _), by decide, hdig _ (pad2_all_digits _)⟩,
      by decide, hdig _ (pad2_all_digits _)⟩

theorem formatSecs_head_digit (n : ℕ) :
    ∃ c cs, formatSecs n = c :: cs ∧ c.isDigit = true := by
  by_cases h : n < 3600
  · obtain ⟨c, t, hc, hd⟩ := natToChars_head_digit (n % 3600 / 60)
    exact ⟨c, t ++ ':' :: pad2 (n % 60), by rw [formatSecs_of_lt h, hc]; rfl, hd⟩
  · obtain ⟨c, t, hc, hd⟩ := natToChars_head_digit (n / 3600)
    refine ⟨c, t ++ ':' :: pad2 (n % 3600 / 60) ++ ':' :: pad2 (n % 60), ?_, hd⟩
    rw [formatSecs_of_ge (by omega), hc]
    simp

theorem formatSecs_last_digit (n : ℕ) :
    ∃ pre d, formatSecs n = pre ++ [d] ∧ d.isDigit = true := by
  obtain ⟨p, d, hp, hd⟩ := pad2_last_digit (n % 60)
  by_cases h : n < 3600
  · refine ⟨natToChars (n % 3600 / 60) ++ ':' :: p, d, ?_, hd⟩
    rw [formatSecs_of_lt h, hp]
    simp
  · refine ⟨natToChars (n / 3600) ++ ':' :: pad2 (n % 3600 / 60) ++ ':' :: p, d, ?_, hd⟩
    rw [formatSecs_of_ge (by omega), hp]
    simp

theorem dash_not_mem_formatSecs (n : ℕ) : '-' ∉ formatSecs n :=
  not_mem_of_all (formatSecs_all_tsChar n) (by decide)

theorem newline_not_mem_formatSecs (n : ℕ) : '\n' ∉ formatSecs n :=
  not_mem_of_all (formatSecs_all_tsChar n) (by decide)

theorem newline_not_mem_descriptionLine (h : Highlight) : '\n' ∉ descriptionLine h := by
  intro hm
  rw [descriptionLine] at hm
  rcases List.mem_append.mp hm with hA | hB
  · rw [formatTimestampForDescription] at hA
    exact newline_not_mem_formatSecs _ hA
  · simp only [List.mem_cons] at hB
    rcases hB with h1 | h1 | h1 | hB
    · exact absurd h1 (by decide)
    · exact absurd h1 (by decide)
    · exact absurd h1 (by decide)
    · rw [formatTimestampForDescription] at hB
      exact newline_not_mem_formatSecs _ hB

theorem matchRange_descriptionLine (h : Highlight) :
    matchRange (descriptionLine h)
      = some (formatTimestampForDescription h.start_time,
              formatTimestampForDescription h.end_time) := by
  rw [descriptionLine, matchRange]
  set A := formatTimestampForDescription h.start_time with hA
  set B := formatTimestampForDescription h.end_time with hB
  have hshape : A ++ ' ' :: '-' :: ' ' :: B = (A ++ [' ']) ++ '-' :: (' ' :: B) := by simp
  have hdashA : '-' ∉ A ++ [' '] := by
    intro hm
    rcases List.mem_append.mp hm with hm | hm
    · exact dash_not_mem_formatSecs _ hm
    · simp at hm
  have hdashB : '-' ∉ ' ' :: B := by
    intro hm
    simp only [List.mem_cons] at hm
    rcases hm with h1 | hm
    · exact absurd h1 (by decide)
    · rw [hB, formatTimestampForDescription] at hm
      exact dash_not_mem_formatSecs _ hm
  rw [hshape, splitOnChar_append_sep hdashA, splitOnChar_of_not_mem hdashB]
  obtain ⟨pre, d, hpd, hdd⟩ := formatSecs_last_digit (roundNat h.start_time)
  obtain ⟨c, cs, hccs, hcd⟩ := formatSecs_head_digit (roundNat h.end_time)
  have htrimA : trimRight (A ++ [' ']) = A := by
    rw [trimRight_append_space (by decide), hA, formatTimestampForDescription, hpd]
    exact trimRight_append_of_not_space (isSpaceChar_eq_false_of_isDigit hdd)
  have htrimB : trimLeft (' ' :: B) = B := by
    rw [trimLeft_cons_space (by decide), hB, formatTimestampForDescription, hccs]
    exact trimLeft_cons_of_not_space (isSpaceChar_eq_false_of_isDigit hcd)
  simp only [htrimA, htrimB]
  rw [hA, hB]
  simp [formatTimestampForDescription, tsMatches_formatSecs]

theorem jsTrim_descriptionLine (h : Highlight) :
    jsTrim (descriptionLine h) = descriptionLine h := by
  obtain ⟨c, cs, hccs, hcd⟩ := formatSecs_head_digit (roundNat h.start_time)
  obtain ⟨pre, d, hpd, hdd⟩ := formatSecs_last_digit (roundNat h.end_time)
  rw [descriptionLine, formatTimestampForDescription, formatTimestampForDescription,
    hccs, hpd]
  have hshape : (c :: cs) ++ ' ' :: '-' :: ' ' :: (pre ++ [d])
      = c :: ((cs ++ ' ' :: '-' :: ' ' :: pre) ++ [d]) := by simp
  rw [hshape]
  exact jsTrim_of_ends (isSpaceChar_eq_false_of_isDigit hcd)
    (isSpaceChar_eq_false_of_isDigit hdd)

theorem descriptionLine_head_digit (h : Highlight) :
    ∃ c cs, descriptionLine h = c :: cs ∧ c.isDigit = true := by
  obtain ⟨c, cs, hccs, hcd⟩ := formatSecs_head_digit (roundNat h.start_time)
  refine ⟨c, cs ++ ' ' :: '-' :: ' ' :: formatTimestampForDescription h.end_time, ?_, hcd⟩
  rw [descriptionLine, formatTimestampForDescription, hccs]
  rfl

theorem descriptionLine_ne_header (h : Highlight) :
    descriptionLine h ≠ highlightsHeader := by
  obtain ⟨c, cs, hccs, hcd⟩ := descriptionLine_head_digit h
  rw [hccs]
  intro heq
  rw [show highlightsHeader = '[' :: "Highlights]".toList from rfl] at heq
  injection heq with h1 _
  exact digit_ne hcd (by decide) h1

theorem parseTimestamp_format (q : ℚ) :
    parseTimestamp (formatTimestampForDescription q) = some (roundNat q) := by
  rw [formatTimestampForDescription]
  exact parseTimestamp_formatSecs _

/-- Running the worker's section loop over the lines emitted by
`copyForDescription` recovers each rounded pair. -/
theorem parseLoop_formatted (hs : List Highlight)
    (h : ∀ x ∈ hs, roundNat x.start_time < roundNat x.end_time) :
    parseLoop (hs.map descriptionLine) true
      = hs.map (fun x => (roundNat x.start_time, roundNat x.end_time)) := by
  induction hs with
  | nil => rfl
  | cons x rest ih =>
    have hx := h x (List.mem_cons_self _ _)
    obtain ⟨c, cs, hccs, hcd⟩ := descriptionLine_head_digit x
    have hempty : (descriptionLine x).isEmpty = false := by
      rw [hccs]
      rfl
    have hhead : ((descriptionLine x).head? = some '[') = False := by
      rw [hccs]
      simp only [List.head?_cons, Option.some.injEq, eq_iff_iff, iff_false]
      exact digit_ne hcd (by decide)
    simp only [List.map_cons, parseLoop, jsTrim_descriptionLine,
      descriptionLine_ne_header x, if_false, Bool.not_true, hempty, hhead,
      matchRange_descriptionLine, parseTimestamp_format, decide_False,
      Bool.false_and, Bool.or_self, Bool.false_eq_true, if_false, gt_iff_lt, hx, if_true]
    exact congrArg _ (ih fun y hy => h y (List.mem_cons_of_mem _ hy))

/-- The loop skips the watch-url line and the blank line before the
`[Highlights]` header, then enters the section. -/
theorem parseLoop_prefix (url : Str) (rest : List Str)
    (hurl : jsTrim url ≠ highlightsHeader) :
    parseLoop (url :: [] :: highlightsHeader :: rest) false = parseLoop rest true := by
  have hnil : jsTrim ([] : Str) = [] := rfl
  have hheader : jsTrim highlightsHeader = highlightsHeader := by decide
  simp only [parseLoop, hurl, if_false, Bool.not_false, if_true, hnil, hheader,
    show ([] : Str) ≠ highlightsHeader by decide, if_true]

/- ### Sorting lemmas -/

theorem roundNat_mono {a b : ℚ} (h : a ≤ b) : roundNat a ≤ roundNat b := by
  have hf : ⌊a + 1/2⌋ ≤ ⌊b + 1/2⌋ := Int.floor_mono (by linarith)
  unfold roundNat jsRound
  omega

theorem hlLe_trans : ∀ (a b c : Highlight), hlLe a b → hlLe b c → hlLe a c := by
  intro a b c hab hbc
  simp only [hlLe, decide_eq_true_eq] at hab hbc ⊢
  exact le_trans hab hbc

theorem hlLe_total : ∀ (a b : Highlight), (hlLe a b || hlLe b a) = true := by
  intro a b
  simp only [hlLe, Bool.or_eq_true, decide_eq_true_eq]
  exact le_total _ _

theorem sortByStart_pairwise (hs : List Highlight) :
    (sortByStart hs).Pairwise (fun a b => a.start_time ≤ b.start_time) := by
  have h := List.sorted_mergeSort hlLe_trans hlLe_total hs
  exact h.imp (fun {a b} hab => by simpa [hlLe] using hab)

theorem mem_sortByStart {x : Highlight} {hs : List Highlight} :
    x ∈ sortByStart hs ↔ x ∈ hs := by
  simp [sortByStart]

/- ### Claim C1 -/

/-- **C1** (amended): formatting a non-empty list of highlights with
`copyForDescription` and re-parsing the text with
`parseHighlightsFromDescription` yields exactly the pairs
`(round(start_time), round(end_time))` of the highlights sorted
ascending by `start_time`, provided each highlight's two times round to
distinct whole seconds; the result is ordered ascending by start time.
(As stated the claim fails: a highlight whose two ends round to the same
second is dropped by the re-parse, see `C1_roundtrip_counterexample`.) -/
theorem C1_roundtrip_amended (watchUrl : Str) (hs : List Highlight)
    (hnl : '\n' ∉ watchUrl) (hhdr : jsTrim watchUrl ≠ highlightsHeader)
    (hne : hs ≠ [])
    (hval : ∀ x ∈ hs, 0 ≤ x.start_time ∧ roundNat x.start_time < roundNat x.end_time) :
    ∃ text, copyForDescription watchUrl hs = some text ∧
      parseHighlightsFromDescription text
        = (sortByStart hs).map (fun x => (roundNat x.start_time, roundNat x.end_time)) ∧
      (parseHighlightsFromDescription text).Pairwise (fun p q => p.1 ≤ q.1) := by
  have hie : hs.isEmpty = false := by
    cases hs with
    | nil => exact absurd rfl hne
    | cons a t => rfl
  refine ⟨joinLines ([watchUrl, [], highlightsHeader] ++
    (sortByStart hs).map descriptionLine), ?_, ?_⟩
  · simp [copyForDescription, hie]
  have hnlmem : ∀ l ∈ [watchUrl, [], highlightsHeader] ++
      (sortByStart hs).map descriptionLine, '\n' ∉ l := by
    intro l hl
    rcases List.mem_append.mp hl with hl | hl
    · simp only [List.mem_cons, List.not_mem_nil, or_false] at hl
      rcases hl with rfl | rfl | rfl
      · exact hnl
      · exact List.not_mem_nil _
      · decide
    · obtain ⟨x, _, rfl⟩ := List.mem_map.mp hl
      exact newline_not_mem_descriptionLine x
  have hsplit := splitOnChar_joinLines (m := [watchUrl, [], highlightsHeader] ++
    (sortByStart hs).map descriptionLine) (by simp) hnlmem
  have htext_ne : joinLines ([watchUrl, [], highlightsHeader] ++
      (sortByStart hs).map descriptionLine) ≠ [] := by
    rw [show [watchUrl, [], highlightsHeader] ++ (sortByStart hs).map descriptionLine
      = watchUrl :: [] :: highlightsHeader :: (sortByStart hs).map descriptionLine from rfl,
      joinLines_cons_cons]
    simp
  have hie2 : (joinLines ([watchUrl, [], highlightsHeader] ++
      (sortByStart hs).map descriptionLine)).isEmpty = false := by
    cases hjl : joinLines ([watchUrl, [], highlightsHeader] ++
        (sortByStart hs).map descriptionLine) with
    | nil => exact absurd hjl htext_ne
    | cons c t => rfl
  have hparse : parseHighlightsFromDescription
      (joinLines ([watchUrl, [], highlightsHeader] ++
        (sortByStart hs).map descriptionLine))
      = (sortByStart hs).map (fun x => (roundNat x.start_time, roundNat x.end_time)) := by
    rw [parseHighlightsFromDescription, hie2]
    simp only [Bool.false_eq_true, if_false]
    rw [hsplit,
      show [watchUrl, [], highlightsHeader] ++ (sortByStart hs).map descriptionLine
        = watchUrl :: [] :: highlightsHeader :: (sortByStart hs).map descriptionLine from rfl,
      parseLoop_prefix _ _ hhdr,
      parseLoop_formatted _ (fun x hx => (hval x (mem_sortByStart.mp hx)).2)]
  refine ⟨hparse, ?_⟩
  rw [hparse, List.pairwise_map]
  exact (sortByStart_pairwise hs).imp (fun {a b} hab => roundNat_mono hab)

theorem hsW_valid :
    ∀ x ∈ hsW, 0 ≤ x.start_time ∧ roundNat x.start_time < roundNat x.end_time := by
  intro x hx
  simp only [hsW, List.mem_cons, List.not_mem_nil, or_false] at hx
  rcases hx with rfl | rfl <;> norm_num [roundNat, jsRound] <;> decide

/-- **C1** (counterexample): the claim fails as stated for the highlight
`[6/5, 7/5]`: `copyForDescription` formats it as `0:01 - 0:01` (both
ends round to second 1), which `parseHighlightsFromDescription` drops,
so the round trip of this one-element highlight list yields the empty
list, which is not equivalent to any one-element `(start, end)` list. -/
theorem C1_roundtrip_counterexample :
    (copyForDescription urlW [hlTiny]).map parseHighlightsFromDescription = some [] := by
  have hline : descriptionLine hlTiny = "0:01 - 0:01".toList := by
    have h1 : roundNat (6/5 : ℚ) = 1 := by norm_num [roundNat, jsRound]
    have h2 : roundNat (7/5 : ℚ) = 1 := by norm_num [roundNat, jsRound]
    rw [descriptionLine, formatTimestampForDescription, formatTimestampForDescription,
      show hlTiny.start_time = 6/5 from rfl, show hlTiny.end_time = 7/5 from rfl, h1, h2]
    decide
  have hsort : sortByStart [hlTiny] = [hlTiny] := by simp [sortByStart]
  rw [copyForDescription]
  rw [show ([hlTiny].isEmpty) = false from rfl]
  simp only [Bool.false_eq_true, if_false, Option.map_some', hsort, List.map_cons,
    List.map_nil, hline, Option.some.injEq]
  decide

/-- Witness for `C1_roundtrip_amended` at the concrete url `urlW` and
highlight list `hsW`. -/
theorem C1_roundtrip_amended_witness :
    ('\n' ∉ urlW ∧ jsTrim urlW ≠ highlightsHeader ∧ hsW ≠ [] ∧
      (∀ x ∈ hsW, 0 ≤ x.start_time ∧ roundNat x.start_time < roundNat x.end_time)) ∧
    (∃ text, copyForDescription urlW hsW = some text ∧
      parseHighlightsFromDescription text
        = (sortByStart hsW).map (fun x => (roundNat x.start_time, roundNat x.end_time)) ∧
      (parseHighlightsFromDescription text).Pairwise (fun p q => p.1 ≤ q.1)) :=
  ⟨⟨by decide, by decide, by decide, hsW_valid⟩,
    C1_roundtrip_amended urlW hsW (by decide) (by decide) (by decide) hsW_valid⟩

/- ### Claim C2: the parser against the claim's description -/

theorem lineToPair_header : lineToPair highlightsHeader = none := by decide

theorem parseLoop_break_cond (l : Str) :
    (l.isEmpty || (decide (l.head? = some '[') && decide (l.getLast? = some ']')))
      = isBlankOrBracketed l := rfl

/-- The section part of the worker loop is the claim's
takeWhile/filterMap/filter pipeline, with the amended stop predicate. -/
theorem parseLoop_true_eq (ls : List Str) :
    parseLoop ls true
      = (((ls.map jsTrim).takeWhile
            (fun l => !(isBlankOrBracketed l && !(decide (l = highlightsHeader))))).filterMap
          lineToPair).filter (fun p => decide (p.1 < p.2)) := by
  induction ls with
  | nil => rfl
  | cons l rest ih =>
    simp only [List.map_cons, List.takeWhile_cons, parseLoop, Bool.not_true, if_false,
      Bool.false_eq_true, parseLoop_break_cond]
    by_cases hh : jsTrim l = highlightsHeader
    · rw [hh]
      simp only [if_pos rfl, decide_True, Bool.not_true, Bool.and_false, Bool.not_false,
        if_true, List.filterMap_cons, lineToPair_header, ih]
    · simp only [hh, if_false, decide_False, Bool.not_false, Bool.and_true]
      by_cases hb : isBlankOrBracketed (jsTrim l) = true
      · simp [hb]
      · simp only [Bool.not_eq_true] at hb
        simp only [hb, Bool.false_eq_true, if_false, Bool.not_false, if_true,
          List.filterMap_cons, lineToPair]
        rcases hm : matchRange (jsTrim l) with _ | ⟨g1, g2⟩
        · simpa [hm] using ih
        · rcases hp1 : parseTimestamp g1 with _ | s
          · simpa [hm, hp1] using ih
          · rcases hp2 : parseTimestamp g2 with _ | e
            · simpa [hm, hp1, hp2] using ih
            · by_cases hse : s < e
              · simpa [hm, hp1, hp2, List.filter_cons, gt_iff_lt, hse] using ih
              · simpa [hm, hp1, hp2, List.filter_cons, gt_iff_lt, hse] using ih

/-- Before the header the worker loop only searches for the first
`[Highlights]` line. -/
theorem parseLoop_false_eq (ls : List Str) :
    parseLoop ls false
      = match (ls.map jsTrim).dropWhile (fun l => !(decide (l = highlightsHeader))) with
        | [] => []
        | _ :: after =>
          ((after.takeWhile
              (fun l => !(isBlankOrBracketed l && !(decide (l = highlightsHeader))))).filterMap
            lineToPair).filter (fun p => decide (p.1 < p.2)) := by
  induction ls with
  | nil => rfl
  | cons l rest ih =>
    simp only [List.map_cons, List.dropWhile_cons, parseLoop, Bool.not_false, if_true]
    by_cases hh : jsTrim l = highlightsHeader
    · simp only [hh, if_pos rfl, decide_True, Bool.not_true, Bool.false_eq_true, if_false]
      exact parseLoop_true_eq rest
    · simp only [hh, if_false, decide_False, Bool.not_false, if_true]
      exact ih

/-- **C2** (amended): `parseHighlightsFromDescription` returns exactly
the pairs, in order of appearance, of the lines after the first
`[Highlights]` line and before the first blank line or bracketed
section header *other than `[Highlights]`* (a later `[Highlights]` line
is skipped and the scan continues), that match the timestamp-range
pattern, timestamps converted by `M*60+SS` / `H*3600+MM*60+SS`, keeping
only pairs with `end_time > start_time`; a description with no
`[Highlights]` header yields the empty list.  (As stated — the scan
stopping at *any* bracketed header — the claim fails, see
`C2_parse_spec_counterexample`.) -/
theorem C2_parse_spec_amended (d : Str) :
    parseHighlightsFromDescription d = specParseAmended d := by
  rw [parseHighlightsFromDescription, specParseAmended, specParseWith]
  cases d with
  | nil => decide
  | cons c cs =>
    simp only [List.isEmpty_cons, Bool.false_eq_true, if_false]
    exact parseLoop_false_eq _

/-- **C2** (counterexample): on a description with a second
`[Highlights]` line inside the section, the code keeps scanning and
returns both pairs, while the claim as stated (stop at the first
bracketed section header) would return only the first pair. -/
theorem C2_parse_spec_counterexample :
    parseHighlightsFromDescription
        "[Highlights]\n0:01 - 0:02\n[Highlights]\n0:03 - 0:04".toList
      = [(1, 2), (3, 4)] ∧
    specParseStated "[Highlights]\n0:01 - 0:02\n[Highlights]\n0:03 - 0:04".toList
      = [(1, 2)] := by
  constructor <;> decide

/- ### Claim C3 -/

theorem mergeSort_startOrdered (l : List Highlight) : startOrdered (l.mergeSort hlLe) :=
  (List.sorted_mergeSort hlLe_trans hlLe_total l).imp
    (fun {a b} hab => by simpa [hlLe] using hab)

/-- **C3** (counterexample): the highlight list `loadVideoData` builds
from the parsed description pairs preserves description order and is
not sorted by `start_time` when the description lists ranges out of
order. -/
theorem C3_ordering_counterexample :
    ¬ startOrdered (loadHighlights (parseHighlightsFromDescription
        "[Highlights]\n0:30 - 0:40\n0:10 - 0:20".toList)) := by decide

/-- **C3** (amended): the list is sorted ascending by `start_time` after
every `createHighlight`, and after every `updateHighlight` provided the
list was sorted before (the operation re-sorts, and leaves the list
unchanged when the id is absent); the list seeded by `loadVideoData` is
in description order, which need not be sorted
(`C3_ordering_counterexample`). -/
theorem C3_ordering_amended (s : EditorState) (a b : ℚ) (id : Str)
    (upd : Highlight → Highlight) (hs : startOrdered s.highlights) :
    startOrdered (createHighlight s a b).highlights ∧
    startOrdered (updateHighlight s id upd).highlights := by
  constructor
  · simp only [createHighlight]
    exact mergeSort_startOrdered _
  · rw [updateHighlight]
    rcases hfi : s.highlights.findIdx? (fun h => decide (h.id = id)) with _ | i
    · simpa only [hfi] using hs
    · rcases hgi : s.highlights[i]? with _ | h
      · simpa only [hfi, hgi] using hs
      · simp only [hfi, hgi]
        exact mergeSort_startOrdered _

/-- Witness for `C3_ordering_amended` at the concrete state `stateW`. -/
theorem C3_ordering_amended_witness :
    startOrdered stateW.highlights ∧
    (startOrdered (createHighlight stateW 30 40).highlights ∧
     startOrdered (updateHighlight stateW "desc_1".toList
       (fun hh => { hh with end_time := 25 })).highlights) :=
  ⟨by decide, C3_ordering_amended stateW 30 40 "desc_1".toList
    (fun hh => { hh with end_time := 25 }) (by decide)⟩

/- ### Claim C4 -/

/-- **C4**: the client's initial highlight state consists of exactly the
worker's parsed pairs, in the same order: the list has the same length,
the entry at (0-based) index `i` — the claim's `i+1`-st highlight — has
id `desc_<i+1>`, `start_time` and `end_time` equal to the parsed pair,
`duration = end_time - start_time` and source `description`; an empty
pair list seeds the empty state. -/
theorem C4_seeding (pairs : List (ℕ × ℕ)) (i : ℕ) :
    (loadHighlights pairs).length = pairs.length ∧
    (loadHighlights pairs)[i]? = pairs[i]?.map (fun p =>
      { id := "desc_".toList ++ natToChars (i + 1)
        start_time := (p.1 : ℚ)
        end_time := (p.2 : ℚ)
        duration := (p.2 : ℚ) - (p.1 : ℚ)
        source := "description".toList
        label := none }) ∧
    loadHighlights [] = [] := by
  refine ⟨?_, ?_, rfl⟩
  · simp [loadHighlights]
  · simp [loadHighlights, List.getElem?_mapIdx]

/- ### Claim C5 -/

/-- **C5**: the score is the weighted sum of the component scores over
the five features, and on the spec's Scenario C — default weights and
component scores `{duration: 1, hit_count: 0.8, crowd_intensity: 0.5,
motion_intensity: 0.2, confidence: 0.9}` — it equals `6.4 = 32/5`. -/
theorem C5_score_formula :
    computeScore defaultWeights scenarioCScores
      = (Feature.all.map fun f => defaultWeights f * scenarioCScores f).sum ∧
    computeScore defaultWeights scenarioCScores = 32/5 := by
  refine ⟨rfl, ?_⟩
  norm_num [computeScore, Feature.all, defaultWeights, scenarioCScores]

/- ### Claim C6 -/

theorem selectLoop_map_fst (cfg : CompilationConfig) :
    ∀ (rs : List ScoredRallyM) (acc : ℚ), (selectLoop cfg rs acc).map Prod.fst = rs := by
  intro rs
  induction rs with
  | nil => intro acc; rfl
  | cons r rest ih =>
    intro acc
    rw [selectLoop]
    split
    · simp [ih]
    · have hid : (Prod.fst ∘ fun x : ScoredRallyM => (x, false)) = id := rfl
      simp [List.map_map, hid]

theorem filter_selected_map_false (rs : List ScoredRallyM) :
    (rs.map (fun x => (x, false))).filter (fun p => p.2) = [] := by
  induction rs with
  | nil => rfl
  | cons r rest ih => simpa using ih

theorem selectLoop_budget (cfg : CompilationConfig) :
    ∀ (rs : List ScoredRallyM) (acc : ℚ), acc ≤ cfg.max_duration →
      acc + selectedCostSum cfg (selectLoop cfg rs acc) ≤ cfg.max_duration := by
  intro rs
  induction rs with
  | nil =>
    intro acc hacc
    simpa [selectLoop, selectedCostSum] using hacc
  | cons r rest ih =>
    intro acc hacc
    rw [selectLoop]
    split
    · next hfit =>
      have := ih (acc + clipCost cfg r) hfit
      simp only [selectedCostSum, List.filter_cons, decide_True, if_true, List.map_cons,
        List.sum_cons] at this ⊢
      linarith
    · simp only [selectedCostSum, List.filter_cons, decide_False, Bool.false_eq_true,
        if_false, filter_selected_map_false, List.map_nil, List.sum_nil]
      simpa [selectedCostSum] using hacc

theorem pairwise_selected_map_false (rs : List ScoredRallyM) :
    (rs.map (fun x => (x, false))).Pairwise
      (fun a b => b.2 = true → a.2 = true) := by
  induction rs with
  | nil => exact List.Pairwise.nil
  | cons r rest ih =>
    refine List.Pairwise.cons ?_ ih
    intro y hy hfalse
    obtain ⟨x, _, rfl⟩ := List.mem_map.mp hy
    cases hfalse

theorem selectLoop_pairwise (cfg : CompilationConfig) :
    ∀ (rs : List ScoredRallyM) (acc : ℚ),
      (selectLoop cfg rs acc).Pairwise (fun a b => b.2 = true → a.2 = true) := by
  intro rs
  induction rs with
  | nil => intro acc; exact List.Pairwise.nil
  | cons r rest ih =>
    intro acc
    rw [selectLoop]
    split
    · exact List.Pairwise.cons (fun y _ _ => rfl) (ih _)
    · refine List.Pairwise.cons ?_ (pairwise_selected_map_false rest)
      intro y hy hfalse
      obtain ⟨x, _, rfl⟩ := List.mem_map.mp hy
      cases hfalse

/-- **C6**: for every batch of scored rallies in rank order and every
config with a non-negative budget, the selection step keeps the rallies
in order, the total `duration + context_before + context_after` of the
selected rallies stays within `config.max_duration`, and once a rally is
unselected every later rally is unselected regardless of score. -/
theorem C6_selection_budget (cfg : CompilationConfig) (rs : List ScoredRallyM)
    (hmax : 0 ≤ cfg.max_duration) :
    (selectUnderBudget cfg rs).map Prod.fst = rs ∧
    selectedCostSum cfg (selectUnderBudget cfg rs) ≤ cfg.max_duration ∧
    (selectUnderBudget cfg rs).Pairwise (fun a b => b.2 = true → a.2 = true) := by
  refine ⟨selectLoop_map_fst cfg rs 0, ?_, selectLoop_pairwise cfg rs 0⟩
  have := selectLoop_budget cfg rs 0 hmax
  rw [selectUnderBudget]
  linarith

/-- A config with a 10-second budget. -/
def cfgW : CompilationConfig :=
  { context_before := 1
    context_after := 3/2
    transition_duration := 1/2
    add_transitions := true
    max_duration := 10 }

/-- Three ranked rallies with budget costs `5.5`, `6.5`, `4.5` under
`cfgW`: the first is selected, the second exhausts the budget, and the
third stays unselected even though it alone would still fit. -/
def ralliesW : List ScoredRallyM := [⟨3, 10⟩, ⟨4, 8⟩, ⟨2, 6⟩]

/-- Witness for `C6_selection_budget` at `cfgW` and `ralliesW`. -/
theorem C6_selection_budget_witness :
    0 ≤ cfgW.max_duration ∧
    ((selectUnderBudget cfgW ralliesW).map Prod.fst = ralliesW ∧
     selectedCostSum cfgW (selectUnderBudget cfgW ralliesW) ≤ cfgW.max_duration ∧
     (selectUnderBudget cfgW ralliesW).Pairwise (fun a b => b.2 = true → a.2 = true)) :=
  ⟨by decide, C6_selection_budget cfgW ralliesW (by decide)⟩

/- ### Claim C7 -/

theorem updateWeights_nonneg (lr : ℚ) (w : Feature → ℚ) (fb : FeedbackM)
    (hw : NonNegWeights w) : NonNegWeights (updateWeights lr w fb) := by
  intro f
  rw [updateWeights]
  simp only []
  split
  · exact le_max_left _ _
  · apply mul_nonneg (le_max_left _ _)
    apply div_nonneg
    · apply List.sum_nonneg
      intro x hx
      obtain ⟨g, _, rfl⟩ := List.mem_map.mp hx
      exact hw g
    · apply List.sum_nonneg
      intro x hx
      obtain ⟨g, _, rfl⟩ := List.mem_map.mp hx
      exact le_max_left _ _

/-- **C7**: starting from any weight vector with non-negative entries,
after any finite sequence of learner updates (gradient step, clamp to
`≥ 0`, renormalize to the previous sum) every weight is `≥ 0`. -/
theorem C7_weights_nonneg (lr : ℚ) (w : Feature → ℚ) (fbs : List FeedbackM)
    (hw : NonNegWeights w) : NonNegWeights (applyFeedbacks lr w fbs) := by
  induction fbs generalizing w with
  | nil => exact hw
  | cons fb rest ih => exact ih _ (updateWeights_nonneg lr w fb hw)

theorem defaultWeights_nonneg : NonNegWeights defaultWeights := by
  intro f
  cases f <;> norm_num [defaultWeights]

/-- A reject feedback carrying the Scenario C component scores. -/
def fbW : FeedbackM := { decision := .reject, component_scores := scenarioCScores }

/-- Witness for `C7_weights_nonneg`: five consecutive rejects starting
from the default weights (the spec's Scenario D shape). -/
theorem C7_weights_nonneg_witness :
    NonNegWeights defaultWeights ∧
    NonNegWeights (applyFeedbacks (1/10) defaultWeights [fbW, fbW, fbW, fbW, fbW]) :=
  ⟨defaultWeights_nonneg,
    C7_weights_nonneg (1/10) defaultWeights [fbW, fbW, fbW, fbW, fbW] defaultWeights_nonneg⟩

/- ### Claim C8: non-overlap preservation -/

theorem overlaps_symm {a b : Highlight} (h : overlaps a b) : overlaps b a :=
  ⟨h.2, h.1⟩

theorem nonOverlapping_perm {l₁ l₂ : List Highlight} (hp : l₁.Perm l₂) :
    NonOverlapping l₁ ↔ NonOverlapping l₂ :=
  hp.pairwise_iff (fun hab hov => hab (overlaps_symm hov))

theorem nonOverlapping_mergeSort {l : List Highlight} :
    NonOverlapping (l.mergeSort hlLe) ↔ NonOverlapping l :=
  nonOverlapping_perm (List.mergeSort_perm l hlLe)

theorem wouldOverlap_false_not_overlaps {s : EditorState} {a b : ℚ} {ex : Option Str}
    (hwo : wouldOverlap s a b ex = false) {h : Highlight} (hmem : h ∈ s.highlights)
    (hid : ex ≠ some h.id) : ¬ (a < h.end_time ∧ h.start_time < b) := by
  rw [wouldOverlap, List.any_eq_false] at hwo
  have hh := hwo h hmem
  rw [if_neg hid] at hh
  intro ⟨h1, h2⟩
  simp [h1, h2] at hh

theorem bracketStart_highlights (s : EditorState) (t : ℚ) :
    (bracketStart s t).highlights = s.highlights := by
  rw [bracketStart]
  split <;> rfl

theorem createHighlight_nonOverlapping {s : EditorState} {a b : ℚ}
    (hno : NonOverlapping s.highlights)
    (hwo : wouldOverlap s a b none = false) :
    NonOverlapping (createHighlight s a b).highlights := by
  simp only [createHighlight]
  refine nonOverlapping_mergeSort.mpr (List.pairwise_append.mpr ⟨hno, ?_, ?_⟩)
  · exact List.pairwise_singleton _ _
  · intro x hx y hy
    simp only [List.mem_singleton] at hy
    subst hy
    intro hov
    exact wouldOverlap_false_not_overlaps hwo hx (by simp) ⟨hov.2, hov.1⟩

theorem mem_replaceFirst {p : Highlight → Bool} {x : Highlight} {l : List Highlight}
    {y : Highlight} (hy : y ∈ replaceFirst p x l) : y = x ∨ y ∈ l := by
  induction l with
  | nil => simp [replaceFirst] at hy
  | cons h t ih =>
    rw [replaceFirst] at hy
    split at hy
    · rcases List.mem_cons.mp hy with rfl | hy
      · exact Or.inl rfl
      · exact Or.inr (List.mem_cons_of_mem _ hy)
    · rcases List.mem_cons.mp hy with rfl | hy
      · exact Or.inr (List.mem_cons_self _ _)
      · rcases ih hy with rfl | hy
        · exact Or.inl rfl
        · exact Or.inr (List.mem_cons_of_mem _ hy)

theorem set_eq_replaceFirst {l : List Highlight} {p : Highlight → Bool} {i : ℕ}
    (hfi : l.findIdx? p = some i) (x : Highlight) :
    l.set i x = replaceFirst p x l := by
  induction l generalizing i with
  | nil => simp at hfi
  | cons h t ih =>
    rw [List.findIdx?_cons] at hfi
    by_cases hp : p h
    · rw [if_pos hp] at hfi
      injection hfi with hi
      subst hi
      rw [replaceFirst, if_pos hp]
      rfl
    · rw [if_neg hp, List.findIdx?_succ] at hfi
      rcases hj : t.findIdx? p with _ | j
      · rw [hj] at hfi
        simp at hfi
      · rw [hj] at hfi
        simp only [Option.map_some'] at hfi
        injection hfi with hi
        subst hi
        rw [replaceFirst, if_neg hp, List.set_cons_succ, ih hj]

theorem findIdx?_consistent_find? {l : List Highlight} {p : Highlight → Bool} {i : ℕ}
    (hfi : l.findIdx? p = some i) {h : Highlight} (hf : l.find? p = some h) :
    l[i]? = some h := by
  induction l generalizing i with
  | nil => simp at hfi
  | cons a t ih =>
    rw [List.findIdx?_cons] at hfi
    by_cases hp : p a
    · rw [if_pos hp] at hfi
      injection hfi with hi
      subst hi
      rw [List.find?_cons_of_pos _ hp] at hf
      injection hf with hh
      subst hh
      simp
    · rw [if_neg hp, List.findIdx?_succ] at hfi
      rw [List.find?_cons_of_neg _ hp] at hf
      rcases hj : t.findIdx? p with _ | j
      · rw [hj] at hfi
        simp at hfi
      · rw [hj] at hfi
        simp only [Option.map_some'] at hfi
        injection hfi with hi
        subst hi
        simpa using ih hj hf

theorem replaceFirst_nonOverlapping {l : List Highlight} {sel : Str} {x : Highlight}
    (hnod : (l.map Highlight.id).Nodup)
    (hno : l.Pairwise (fun a b => ¬ overlaps a b))
    (hguard : ∀ h ∈ l, h.id ≠ sel → ¬ overlaps x h) :
    (replaceFirst (fun h => decide (h.id = sel)) x l).Pairwise
      (fun a b => ¬ overlaps a b) := by
  induction l with
  | nil => exact List.Pairwise.nil
  | cons h t ih =>
    rw [List.map_cons, List.nodup_cons] at hnod
    rw [List.pairwise_cons] at hno
    rw [replaceFirst]
    by_cases hp : h.id = sel
    · rw [if_pos (by simpa using hp)]
      refine List.Pairwise.cons ?_ hno.2
      intro y hy
      have hyne : y.id ≠ sel := by
        intro hcontra
        exact hnod.1 (hp ▸ hcontra ▸ List.mem_map_of_mem Highlight.id hy)
      exact hguard y (List.mem_cons_of_mem _ hy) hyne
    · rw [if_neg (by simpa using hp)]
      refine List.Pairwise.cons ?_ (ih hnod.2 hno.2
        (fun hh hmem hne => hguard hh (List.mem_cons_of_mem _ hmem) hne))
      intro y hy
      rcases mem_replaceFirst hy with rfl | hy
      · intro hov
        exact hguard h (List.mem_cons_self _ _) hp (overlaps_symm hov)
      · exact hno.1 y hy

theorem updateHighlight_nonOverlapping (s : EditorState) (selId : Str)
    (upd : Highlight → Highlight)
    (hnod : idsNodup s.highlights) (hno : NonOverlapping s.highlights)
    (hguard : ∀ h0, s.highlights.find? (fun h => decide (h.id = selId)) = some h0 →
      ∀ hh ∈ s.highlights, hh.id ≠ selId →
        ¬ overlaps (recomputeDuration (upd h0)) hh) :
    NonOverlapping (updateHighlight s selId upd).highlights := by
  rw [updateHighlight]
  rcases hfi : s.highlights.findIdx? (fun h => decide (h.id = selId)) with _ | i
  · simpa only [hfi] using hno
  · rcases hf : s.highlights.find? (fun h => decide (h.id = selId)) with _ | h0
    · exfalso
      rw [List.find?_eq_none] at hf
      have hsome : (s.highlights.findIdx? (fun h => decide (h.id = selId))).isSome = true := by
        rw [hfi]
        rfl
      rw [List.findIdx?_isSome, List.any_eq_true] at hsome
      obtain ⟨x, hx, hpx⟩ := hsome
      exact hf x hx hpx
    · have hgi := findIdx?_consistent_find? hfi hf
      simp only [hfi, hgi]
      rw [set_eq_replaceFirst hfi]
      exact nonOverlapping_mergeSort.mpr
        (replaceFirst_nonOverlapping hnod hno (hguard h0 hf))

/-- **C8** (amended): if the highlight ids are distinct and no two
highlights overlap in the open-interval sense
(`a.start_time < b.end_time ∧ b.start_time < a.end_time`, the relation
`wouldOverlap` tests), then after any `setHighlightStart` or
`setHighlightEnd` (including a triggered `createHighlight`) no two
highlights overlap; a bracket start inside an existing
`[start_time, end_time)` span is refused, and a creation or boundary
change is rejected exactly when its open interval overlaps another
highlight — intervals touching at an endpoint are allowed, so the
claim's closed-interval `[start, end]` reading fails, see
`C8_touching_counterexample`. -/
theorem C8_nonoverlap_preserved (s : EditorState) (t : ℚ)
    (hnod : idsNodup s.highlights) (hno : NonOverlapping s.highlights) :
    NonOverlapping (setHighlightStart s t).highlights ∧
    NonOverlapping (setHighlightEnd s t).highlights := by
  constructor
  · rw [setHighlightStart]
    rcases hsel : s.selectedHighlightId with _ | selId
    · simp only [hsel, bracketStart_highlights]
      exact hno
    · rcases hrec : s.recordingStart with _ | rs
      · simp only [hsel, hrec]
        rcases hf : s.highlights.find? (fun h => decide (h.id = selId)) with _ | h0
        · simp only [hf, bracketStart_highlights]
          exact hno
        · simp only [hf]
          by_cases ht : t < h0.end_time
          · rw [if_pos ht]
            by_cases hwo : wouldOverlap s t h0.end_time (some selId) = true
            · rw [if_pos hwo]
              exact hno
            · have hwo2 : wouldOverlap s t h0.end_time (some selId) = false := by
                simpa using hwo
              rw [if_neg hwo]
              refine updateHighlight_nonOverlapping s selId _ hnod hno ?_
              intro h1 hf1 hh hmem hne
              rw [hf] at hf1
              injection hf1 with hf1
              subst hf1
              intro hov
              exact wouldOverlap_false_not_overlaps hwo2 hmem
                (by simpa using (fun he => hne he.symm)) ⟨hov.1, hov.2⟩
          · rw [if_neg ht, bracketStart_highlights]
            exact hno
      · simp only [hsel, hrec, bracketStart_highlights]
        exact hno
  · have hsel_end : NonOverlapping (selEnd s t).highlights := by
      rw [selEnd]
      rcases hsel : s.selectedHighlightId with _ | selId
      · simp only [hsel]
        exact hno
      · simp only [hsel]
        rcases hf : s.highlights.find? (fun h => decide (h.id = selId)) with _ | h0
        · simp only [hf]
          exact hno
        · simp only [hf]
          by_cases ht : t > h0.start_time
          · rw [if_pos ht]
            by_cases hwo : wouldOverlap s h0.start_time t (some selId) = true
            · rw [if_pos hwo]
              exact hno
            · have hwo2 : wouldOverlap s h0.start_time t (some selId) = false := by
                simpa using hwo
              rw [if_neg hwo]
              refine updateHighlight_nonOverlapping s selId _ hnod hno ?_
              intro h1 hf1 hh hmem hne
              rw [hf] at hf1
              injection hf1 with hf1
              subst hf1
              intro hov
              exact wouldOverlap_false_not_overlaps hwo2 hmem
                (by simpa using (fun he => hne he.symm)) ⟨hov.1, hov.2⟩
          · rw [if_neg ht]
            exact hno
    rw [setHighlightEnd]
    rcases hrec : s.recordingStart with _ | rs
    · simp only [hrec]
      exact hsel_end
    · simp only [hrec]
      by_cases ht : t > rs
      · rw [if_pos ht]
        by_cases hwo : wouldOverlap s rs t none = true
        · rw [if_pos hwo]
          exact hno
        · have hwo2 : wouldOverlap s rs t none = false := by simpa using hwo
          rw [if_neg hwo]
          exact createHighlight_nonOverlapping hno hwo2
      · rw [if_neg ht]
        exact hsel_end

/-- Witness for `C8_nonoverlap_preserved` at `stateW` and `t = 8`. -/
theorem C8_nonoverlap_preserved_witness :
    (idsNodup stateW.highlights ∧ NonOverlapping stateW.highlights) ∧
    (NonOverlapping (setHighlightStart stateW 8).highlights ∧
     NonOverlapping (setHighlightEnd stateW 8).highlights) :=
  ⟨⟨by decide, by decide⟩, C8_nonoverlap_preserved stateW 8 (by decide) (by decide)⟩

/-- **C8** (counterexample): from `stateTouch` (recording since `t = 5`
next to the highlight `[10, 20]`), `setHighlightEnd 10` creates the
highlight `[5, 10]` — the list grows to two entries — although the
closed intervals `[5, 10]` and `[10, 20]` intersect at `10`; the
claim's closed-interval reading says this creation is rejected with the
list left unchanged. -/
theorem C8_touching_counterexample :
    (setHighlightEnd stateTouch 10).highlights.length = 2 ∧
    stateTouch.highlights.length = 1 ∧
    stateTouch.recordingStart = some 5 ∧
    hlTen.start_time = 10 ∧ hlTen.end_time = 20 := by
  refine ⟨?_, rfl, rfl, rfl, rfl⟩
  rw [setHighlightEnd]
  simp only [show stateTouch.recordingStart = some 5 from rfl]
  rw [if_pos (by decide : (10:ℚ) > 5)]
  have hwo : wouldOverlap stateTouch 5 10 none = false := by decide
  rw [if_neg (by simp [hwo])]
  simp only [createHighlight]
  rw [(List.mergeSort_perm _ _).length_eq]
  decide

/- ### Claim C9: positive durations -/

theorem find?_some_of_findIdx? {l : List Highlight} {p : Highlight → Bool} {i : ℕ}
    (hfi : l.findIdx? p = some i) : ∃ h0, l.find? p = some h0 := by
  rcases hf : l.find? p with _ | h0
  · exfalso
    rw [List.find?_eq_none] at hf
    have hsome : (l.findIdx? p).isSome = true := by
      rw [hfi]
      rfl
    rw [List.findIdx?_isSome, List.any_eq_true] at hsome
    obtain ⟨x, hx, hpx⟩ := hsome
    exact hf x hx hpx
  · exact ⟨h0, rfl⟩

theorem updateHighlight_forall (s : EditorState) (selId : Str)
    (upd : Highlight → Highlight) (P : Highlight → Prop)
    (hP : ∀ x ∈ s.highlights, P x)
    (hupd : ∀ h0, s.highlights.find? (fun h => decide (h.id = selId)) = some h0 →
      P (recomputeDuration (upd h0))) :
    ∀ x ∈ (updateHighlight s selId upd).highlights, P x := by
  rw [updateHighlight]
  rcases hfi : s.highlights.findIdx? (fun h => decide (h.id = selId)) with _ | i
  · simpa only [hfi] using hP
  · obtain ⟨h0, hf⟩ := find?_some_of_findIdx? hfi
    have hgi := findIdx?_consistent_find? hfi hf
    simp only [hfi, hgi]
    intro x hx
    rw [List.mem_mergeSort, set_eq_replaceFirst hfi] at hx
    rcases mem_replaceFirst hx with rfl | hx
    · exact hupd h0 hf
    · exact hP x hx

theorem createHighlight_forall (s : EditorState) (a b : ℚ) (P : Highlight → Prop)
    (hP : ∀ x ∈ s.highlights, P x)
    (hnew : ∀ idstr : Str, P (Highlight.mk idstr a b (b - a) "manual".toList none)) :
    ∀ x ∈ (createHighlight s a b).highlights, P x := by
  simp only [createHighlight]
  intro x hx
  rw [List.mem_mergeSort] at hx
  rcases List.mem_append.mp hx with hx | hx
  · exact hP x hx
  · simp only [List.mem_singleton] at hx
    subst hx
    exact hnew _

theorem parse_pairs_pos (d : Str) : ∀ p ∈ parseHighlightsFromDescription d, p.1 < p.2 := by
  intro p hp
  rw [parseHighlightsFromDescription] at hp
  cases d with
  | nil => simp at hp
  | cons c cs =>
    simp only [List.isEmpty_cons, Bool.false_eq_true, if_false] at hp
    rw [parseLoop_false_eq] at hp
    rcases hdrop : (((c :: cs) |> splitOnChar '\n').map jsTrim).dropWhile
        (fun l => !(decide (l = highlightsHeader))) with _ | ⟨l0, after⟩
    · rw [hdrop] at hp
      simp at hp
    · rw [hdrop] at hp
      simp only [] at hp
      have := (List.mem_filter.mp hp).2
      simpa using this

theorem loadHighlights_goodDur (pairs : List (ℕ × ℕ))
    (hpos : ∀ p ∈ pairs, p.1 < p.2) :
    ∀ x ∈ loadHighlights pairs, GoodDur x := by
  intro x hx
  rw [List.mem_iff_getElem?] at hx
  obtain ⟨i, hi⟩ := hx
  rw [loadHighlights, List.getElem?_mapIdx] at hi
  rcases hp : pairs[i]? with _ | p
  · rw [hp] at hi
    simp at hi
  · rw [hp] at hi
    simp only [Option.map_some'] at hi
    injection hi with hi
    subst hi
    have hmem : p ∈ pairs := List.getElem?_mem hp
    refine ⟨?_, rfl⟩
    show (p.1 : ℚ) < (p.2 : ℚ)
    exact_mod_cast hpos p hmem

/-- **C9**: if every highlight of the current state has
`start_time < end_time` and `duration = end_time - start_time`, then so
does every highlight after `setHighlightStart` and `setHighlightEnd`
(including a triggered `createHighlight`, whose guard `time >
recordingStart` rejects creations with `end ≤ start`, and boundary
updates, whose guards reject adjustments violating
`start_time < end_time`); every highlight seeded from a parsed
description also satisfies it, because the parser keeps only pairs with
`end_time > start_time`. -/
theorem C9_positive_duration (s : EditorState) (t : ℚ) (d : Str)
    (hgood : ∀ x ∈ s.highlights, GoodDur x) :
    (∀ x ∈ (setHighlightStart s t).highlights, GoodDur x) ∧
    (∀ x ∈ (setHighlightEnd s t).highlights, GoodDur x) ∧
    (∀ x ∈ loadHighlights (parseHighlightsFromDescription d), GoodDur x) := by
  refine ⟨?_, ?_, loadHighlights_goodDur _ (parse_pairs_pos d)⟩
  · rw [setHighlightStart]
    rcases hsel : s.selectedHighlightId with _ | selId
    · simpa only [hsel, bracketStart_highlights] using hgood
    · rcases hrec : s.recordingStart with _ | rs
      · simp only [hsel, hrec]
        rcases hf : s.highlights.find? (fun h => decide (h.id = selId)) with _ | h0
        · simpa only [hf, bracketStart_highlights] using hgood
        · simp only [hf]
          by_cases ht : t < h0.end_time
          · rw [if_pos ht]
            by_cases hwo : wouldOverlap s t h0.end_time (some selId) = true
            · rw [if_pos hwo]
              exact hgood
            · rw [if_neg hwo]
              refine updateHighlight_forall s selId _ _ hgood ?_
              intro h1 hf1
              rw [hf] at hf1
              injection hf1 with hf1
              subst hf1
              exact ⟨ht, rfl⟩
          · rw [if_neg ht]
            simpa only [bracketStart_highlights] using hgood
      · simpa only [hsel, hrec, bracketStart_highlights] using hgood
  · have hsel_end : ∀ x ∈ (selEnd s t).highlights, GoodDur x := by
      rw [selEnd]
      rcases hsel : s.selectedHighlightId with _ | selId
      · simpa only [hsel] using hgood
      · simp only [hsel]
        rcases hf : s.highlights.find? (fun h => decide (h.id = selId)) with _ | h0
        · simpa only [hf] using hgood
        · simp only [hf]
          by_cases ht : t > h0.start_time
          · rw [if_pos ht]
            by_cases hwo : wouldOverlap s h0.start_time t (some selId) = true
            · rw [if_pos hwo]
              exact hgood
            · rw [if_neg hwo]
              refine updateHighlight_forall s selId _ _ hgood ?_
              intro h1 hf1
              rw [hf] at hf1
              injection hf1 with hf1
              subst hf1
              exact ⟨ht, rfl⟩
          · rw [if_neg ht]
            exact hgood
    rw [setHighlightEnd]
    rcases hrec : s.recordingStart with _ | rs
    · simpa only [hrec] using hsel_end
    · simp only [hrec]
      by_cases ht : t > rs
      · rw [if_pos ht]
        by_cases hwo : wouldOverlap s rs t none = true
        · rw [if_pos hwo]
          exact hgood
        · rw [if_neg hwo]
          exact createHighlight_forall s rs t _ hgood (fun idstr => ⟨ht, rfl⟩)
      · rw [if_neg ht]
        exact hsel_end

theorem stateW_goodDur : ∀ x ∈ stateW.highlights, GoodDur x := by
  intro x hx
  simp only [stateW, List.mem_singleton] at hx
  subst hx
  refine ⟨by decide, ?_⟩
  norm_num [hlTen]

/-- Witness for `C9_positive_duration` at `stateW`, `t = 8` and a
one-range description. -/
theorem C9_positive_duration_witness :
    (∀ x ∈ stateW.highlights, GoodDur x) ∧
    ((∀ x ∈ (setHighlightStart stateW 8).highlights, GoodDur x) ∧
     (∀ x ∈ (setHighlightEnd stateW 8).highlights, GoodDur x) ∧
     (∀ x ∈ loadHighlights (parseHighlightsFromDescription
        "[Highlights]\n0:05 - 0:12".toList), GoodDur x)) :=
  ⟨stateW_goodDur,
    C9_positive_duration stateW 8 "[Highlights]\n0:05 - 0:12".toList stateW_goodDur⟩

/- ### Claim C10: worker input validation -/

/-- **C10**: a request to `/api/yt-metadata` (by a non-`OPTIONS` method)
whose `v` query parameter is missing, empty, or fails the pattern
`^[a-zA-Z0-9_-]{11}$` is answered with status 400 and the
`{"error": "Invalid video ID"}` body, and the worker performs no cache
read, no cache write and no YouTube API call. -/
theorem C10_invalid_id (env : WorkerEnv) (req : WorkerRequest)
    (hm : req.method ≠ "OPTIONS".toList)
    (hp : req.pathname = "/api/yt-metadata".toList)
    (hv : req.v.all (fun s => !jsTruthy s || !validVideoId s) = true) :
    workerFetch env req = ({ status := 400, body := .invalidId }, []) := by
  rw [workerFetch, if_neg hm, if_neg (fun hcontra => hcontra hp)]
  rcases hv2 : req.v with _ | s
  · simp only [hv2]
  · rw [hv2] at hv
    simp only [Option.all_some] at hv
    simp only [hv2]
    rw [if_pos hv]

/-- An environment with KV configured and a YouTube oracle. -/
def envW : WorkerEnv :=
  { hasKV := true
    cacheLookup := fun _ => none
    apiKey := "KEY".toList
    yt := fun _ => .noItems }

/-- A GET request for `/api/yt-metadata` with a 5-character id. -/
def reqW : WorkerRequest :=
  { method := "GET".toList
    pathname := "/api/yt-metadata".toList
    v := some "short".toList }

/-- Witness for `C10_invalid_id` at `envW` and `reqW`. -/
theorem C10_invalid_id_witness :
    (reqW.method ≠ "OPTIONS".toList ∧ reqW.pathname = "/api/yt-metadata".toList ∧
      reqW.v.all (fun s => !jsTruthy s || !validVideoId s) = true) ∧
    workerFetch envW reqW = ({ status := 400, body := .invalidId }, []) :=
  ⟨⟨by decide, by decide, by decide⟩,
    C10_invalid_id envW reqW (by decide) (by decide) (by decide)⟩

end YtHlite
